import Mathlib

/-!
Verification of the execution-graph builder (`src/typescript/api/builder.ts`).

The builder translates materializations, operations and assertions into
uniform execution nodes, validates referential integrity of dependency
names, detects dependency cycles by a chain-carrying depth-first
traversal, selects nodes according to the run configuration (optionally
expanding to transitive dependencies by a bounded fixed-point iteration),
and prunes each surviving node's dependency list against the final
included-name set.

Every definition below is a direct shallow embedding of the TypeScript
source, except `matchesPattern`/`matchPatterns` which embed the external
`utils.matchPatterns` helper (not part of the reviewed sources) following
the pattern-matcher contract of the specification.
-/

namespace Dataform

/-- One execution task: a SQL string tagged by a `type` field.  The
TypeScript objects are protobuf messages, so an omitted `type` field is
the proto3 default `""`. -/
structure ExecutionTask where
  type : String := ""
  statement : String := ""
deriving DecidableEq

/-- The unified execution node produced by translation. -/
structure ExecutionNode where
  name : String
  dependencies : List String
  tasks : List ExecutionTask
deriving DecidableEq

instance : Inhabited ExecutionNode := ⟨⟨"", [], []⟩⟩

/-- A materialization source entity. -/
structure Materialization where
  name : String
  dependencies : List String
  pres : List String
  posts : List String
  assertions : List String
deriving DecidableEq

/-- An operation source entity. -/
structure Operation where
  name : String
  dependencies : List String
  statements : List String
deriving DecidableEq

/-- An assertion source entity. -/
structure Assertion where
  name : String
  dependencies : List String
  queries : List String
deriving DecidableEq

/-- Project configuration: an opaque blob the builder passes through. -/
structure ProjectConfig where
  blob : String := ""
deriving DecidableEq

/-- The compiled input graph consumed by `build`. -/
structure CompiledGraph where
  projectConfig : ProjectConfig := {}
  materializations : List Materialization := []
  operations : List Operation := []
  assertions : List Assertion := []
deriving DecidableEq

/-- The caller-supplied run configuration. -/
structure RunConfig where
  nodes : List String := []
  includeDependencies : Bool := false
deriving DecidableEq

/-- The build output. -/
structure ExecutionGraph where
  projectConfig : ProjectConfig
  runConfig : RunConfig
  nodes : List ExecutionNode
deriving DecidableEq

/-- The adapter capability consumed during translation of a
materialization (`this.adapter.build(materialization, this.runConfig)`),
an external collaborator modelled as an explicit function argument. -/
abbrev Adapter := Materialization → RunConfig → List ExecutionTask

/-- Modelled from the spec: `utils.matchPatterns` from `@dataform/core`
is imported by the builder but is not among the reviewed sources.  Per
the Pattern Matcher contract (§4.1) a selector matches a candidate by
exact equality or by a trailing/leading `*` wildcard meaning any
suffix/prefix. -/
def matchesPattern (p c : String) : Bool :=
  if p.data.getLast? = some '*' then p.data.dropLast.isPrefixOf c.data
  else if p.data.head? = some '*' then p.data.tail.isSuffixOf c.data
  else p == c

/-- Modelled from the spec: result of `utils.matchPatterns` is the
subset of `candidates` matching at least one selector, in candidate
order (§4.1). -/
def matchPatterns (patterns candidates : List String) : List String :=
  candidates.filter (fun c => patterns.any (fun p => matchesPattern p c))

/-- `buildMaterialization` (builder.ts): pre statements, adapter tasks,
post statements, then embedded assertion queries. -/
def buildMaterialization (adapterBuild : Adapter) (rc : RunConfig)
    (m : Materialization) : ExecutionNode :=
  { name := m.name
    dependencies := m.dependencies
    tasks :=
      m.pres.map (fun p => { type := "", statement := p })
        ++ adapterBuild m rc
        ++ m.posts.map (fun p => { type := "", statement := p })
        ++ m.assertions.map (fun q => { type := "assertion", statement := q }) }

/-- `buildOperation` (builder.ts). -/
def buildOperation (o : Operation) : ExecutionNode :=
  { name := o.name
    dependencies := o.dependencies
    tasks := o.statements.map (fun s => { type := "statement", statement := s }) }

/-- `buildAssertion` (builder.ts). -/
def buildAssertion (a : Assertion) : ExecutionNode :=
  { name := a.name
    dependencies := a.dependencies
    tasks := a.queries.map (fun q => { type := "assertion", statement := q }) }

/-- `allNodes` in `Builder.build`: `[].concat(materializations.map(...),
operations.map(...), assertions.map(...))`. -/
def translatedNodes (f : Adapter) (g : CompiledGraph) (rc : RunConfig) :
    List ExecutionNode :=
  g.materializations.map (buildMaterialization f rc)
    ++ g.operations.map buildOperation
    ++ g.assertions.map buildAssertion

/-- `allNodeNames`. -/
def nodeNames (nodes : List ExecutionNode) : List String :=
  nodes.map (fun nd => nd.name)

/-- The message thrown for a dependency name that resolves to no node. -/
def missingDepMsg (nodeName dep : String) : String :=
  "Node \"" ++ nodeName ++ "\" depends on \"" ++ dep ++ "\" which does not exist."

/-- The inner `forEach` of the referential-integrity check: scan one
node's dependencies in order and throw on the first missing name. -/
def checkDepsOfNode (nodeName : String) (allNames : List String) :
    List String → Except String Unit
  | [] => .ok ()
  | d :: rest =>
    if allNames.contains d then checkDepsOfNode nodeName allNames rest
    else .error (missingDepMsg nodeName d)

/-- The outer `forEach` of the referential-integrity check. -/
def checkAllDeps (allNames : List String) :
    List ExecutionNode → Except String Unit
  | [] => .ok ()
  | nd :: rest =>
    match checkDepsOfNode nd.name allNames nd.dependencies with
    | .ok _ => checkAllDeps allNames rest
    | .error e => .error e

/-- Index form of `nodeNameMap[name]`: the map is filled by a `forEach`
assignment, so the last translated node with a given name wins. -/
def resolveIdx : List ExecutionNode → String → Option Nat
  | [], _ => none
  | nd :: rest, nm =>
    match resolveIdx rest nm with
    | some j => some (j + 1)
    | none => if nd.name = nm then some 0 else none

/-- The node object at index `i` of the translated node list. -/
def nodeAt (nodes : List ExecutionNode) (i : Nat) : ExecutionNode :=
  nodes.getD i ⟨"", [], []⟩

/-- The name of the node object at index `i`. -/
def nameAt (nodes : List ExecutionNode) (i : Nat) : String :=
  (nodeAt nodes i).name

/-- Outcome of the chain-carrying traversal.  `out` is the artefact of
the explicit recursion bound of the embedding; `checkCircularAll` is
proved never to return it. -/
inductive CircRes where
  | ok : CircRes
  | err : String → CircRes
  | out : CircRes
deriving DecidableEq

/-- The circular-dependency message, built exactly as in `checkCircular`:
`[${dependents.map(d => d.name).join(" > ")} > ${node.name}]`. -/
def chainMsg (nodes : List ExecutionNode) (chain : List Nat) (i : Nat) : String :=
  "Circular dependency detected in chain: ["
    ++ String.intercalate " > " (chain.map (fun j => nameAt nodes j))
    ++ " > " ++ nameAt nodes i ++ "]"

/-- Reading `.dependencies` of `undefined` when a dependency name is
absent from `nodeNameMap` would throw a TypeError in the source; in
`build` this is unreachable because the referential-integrity check has
already passed. -/
def unresolvedMsg : String :=
  "TypeError: cannot read dependencies of undefined"

/-- The `node.dependencies.forEach(d => checkCircular(nodeNameMap[d],
dependents.concat([node])))` loop: visit each dependency in order with
the continuation `visit`, propagating the first thrown error. -/
def runDeps (visit : Nat → CircRes) (nodes : List ExecutionNode) :
    List String → CircRes
  | [] => .ok
  | d :: rest =>
    match resolveIdx nodes d with
    | none => .err unresolvedMsg
    | some j =>
      match visit j with
      | .ok => runDeps visit nodes rest
      | r => r

/-- `checkCircular(node, dependents)` with an explicit recursion bound:
throw if the node is already on the current chain, otherwise recurse
into its dependencies with the node appended to the chain. -/
def checkCircularFuel (nodes : List ExecutionNode) :
    Nat → Nat → List Nat → CircRes
  | 0, _, _ => .out
  | fuel + 1, i, chain =>
    if i ∈ chain then .err (chainMsg nodes chain i)
    else
      runDeps (fun j => checkCircularFuel nodes fuel j (chain ++ [i])) nodes
        (nodeAt nodes i).dependencies

/-- One step of `allNodes.forEach(node => checkCircular(node, []))`: a
previously thrown error propagates, otherwise the traversal is started
from node `i` with an empty chain. -/
def circStep (nodes : List ExecutionNode) (acc : CircRes) (i : Nat) : CircRes :=
  match acc with
  | .ok => checkCircularFuel nodes (nodes.length + 1) i []
  | r => r

/-- `allNodes.forEach(node => checkCircular(node, []))`: run the
traversal from every node in order; the first thrown error aborts. -/
def checkCircularAll (nodes : List ExecutionNode) : CircRes :=
  (List.range nodes.length).foldl (circStep nodes) .ok

/-- `includedNodeNames.push(nodeName)` for every newly matched name:
append the names of `found` that are not yet present, in order. -/
def addNewNames (acc : List String) : List String → List String
  | [] => acc
  | nm :: rest =>
    addNewNames (if acc.contains nm then acc else acc ++ [nm]) rest

/-- The inner `includedNodes.forEach` of the expansion loop: for each
node of the list captured at entry, match its dependencies against all
node names and append the new matches. -/
def expandOver (allNames : List String) (acc : List String) :
    List ExecutionNode → List String
  | [] => acc
  | nd :: rest =>
    expandOver allNames
      (addNewNames acc
        (if nd.dependencies.isEmpty then []
         else matchPatterns nd.dependencies allNames))
      rest

/-- One iteration of the transitive-dependency expansion loop: iterate
over the nodes included at entry, matching each node's dependencies
against all node names and appending the new matches. -/
def expandStep (nodes : List ExecutionNode) (allNames : List String)
    (inc : List String) : List String :=
  expandOver allNames inc (nodes.filter (fun nd => inc.contains nd.name))

/-- The expansion loop body repeated `k` times (`for (let i = 0; i <
allNodes.length; i++)`). -/
def expandMany (nodes : List ExecutionNode) (allNames : List String) :
    Nat → List String → List String
  | 0, inc => inc
  | k + 1, inc => expandMany nodes allNames k (expandStep nodes allNames inc)

/-- Initial inclusion: match the run-configuration selectors when
non-empty, otherwise select every name. -/
def initialIncluded (rc : RunConfig) (allNames : List String) : List String :=
  if rc.nodes.isEmpty then allNames else matchPatterns rc.nodes allNames

/-- The final value of `includedNodeNames` after optional expansion. -/
def finalIncluded (nodes : List ExecutionNode) (rc : RunConfig) : List String :=
  if rc.includeDependencies then
    expandMany nodes (nodeNames nodes) nodes.length
      (initialIncluded rc (nodeNames nodes))
  else initialIncluded rc (nodeNames nodes)

/-- The final value of `includedNodes`: the translated nodes whose name
is in the final included-name set, in translation order. -/
def selectedNodes (nodes : List ExecutionNode) (rc : RunConfig) :
    List ExecutionNode :=
  nodes.filter (fun nd => (finalIncluded nodes rc).contains nd.name)

/-- The pruning pass on one node: `node.dependencies =
matchPatterns(node.dependencies, includedNodeNames)`. -/
def pruneNode (included : List String) (nd : ExecutionNode) : ExecutionNode :=
  { nd with dependencies := matchPatterns nd.dependencies included }

/-- This branch is dead: `checkCircularAll` never returns `.out`
(the recursion bound cannot be exhausted, see `checkCircularAll_ne_out`). -/
def deadFuelMsg : String := "unreachable"

/-- `Builder.build`: translate, check referential integrity, check for
cycles, select, prune, and emit the execution graph.  A thrown error is
an `Except.error` carrying the message. -/
def build (f : Adapter) (g : CompiledGraph) (rc : RunConfig) :
    Except String ExecutionGraph :=
  match checkAllDeps (nodeNames (translatedNodes f g rc)) (translatedNodes f g rc) with
  | .error e => .error e
  | .ok _ =>
    match checkCircularAll (translatedNodes f g rc) with
    | .err e => .error e
    | .out => .error deadFuelMsg
    | .ok =>
      .ok { projectConfig := g.projectConfig
            runConfig := rc
            nodes := (selectedNodes (translatedNodes f g rc) rc).map
              (pruneNode (finalIncluded (translatedNodes f g rc) rc)) }

/-- The names matched for one node during expansion. -/
def foundNames (allNames : List String) (nd : ExecutionNode) : List String :=
  if nd.dependencies.isEmpty then []
  else matchPatterns nd.dependencies allNames

/-- The dependency edge relation of the translated node set, as the
traversal walks it: node `i` points to the node that `nodeNameMap`
resolves each of its dependency names to. -/
def edgeStep (nodes : List ExecutionNode) (i j : Nat) : Prop :=
  ∃ d ∈ (nodeAt nodes i).dependencies, resolveIdx nodes d = some j

instance (nodes : List ExecutionNode) : DecidableRel (edgeStep nodes) :=
  fun i j =>
    inferInstanceAs
      (Decidable (∃ d ∈ (nodeAt nodes i).dependencies, resolveIdx nodes d = some j))

/-- The dependency graph contains a cycle: a closed walk of at least one
edge (a self-dependency gives the walk `[i, i]`). -/
def HasCycle (nodes : List ExecutionNode) : Prop :=
  ∃ l : List Nat, l.Chain' (edgeStep nodes) ∧ 2 ≤ l.length ∧ l.head? = l.getLast?

/-- Edge between node names as the expansion loop follows it: `a`
reaches `b` when some node named `a` has a dependency entry that the
pattern matcher resolves to `b` among all node names. -/
def nameEdge (nodes : List ExecutionNode) (a b : String) : Prop :=
  ∃ nd ∈ nodes, nd.name = a ∧ b ∈ matchPatterns nd.dependencies (nodeNames nodes)

/-- Number of distinct node names not yet included: the termination
measure of the expansion loop. -/
def missingCount (allNames inc : List String) : Nat :=
  (allNames.dedup.filter (fun x => !(inc.contains x))).length

instance exceptDecEq {ε α : Type} [DecidableEq ε] [DecidableEq α] :
    DecidableEq (Except ε α)
  | .ok a, .ok b =>
    if h : a = b then .isTrue (by rw [h])
    else .isFalse (by intro c; cases c; exact h rfl)
  | .ok _, .error _ => .isFalse (by intro c; exact Except.noConfusion c)
  | .error _, .ok _ => .isFalse (by intro c; exact Except.noConfusion c)
  | .error a, .error b =>
    if h : a = b then .isTrue (by rw [h])
    else .isFalse (by intro c; cases c; exact h rfl)

instance (nodes : List ExecutionNode) (a b : String) :
    Decidable (nameEdge nodes a b) :=
  inferInstanceAs (Decidable (∃ nd ∈ nodes,
    nd.name = a ∧ b ∈ matchPatterns nd.dependencies (nodeNames nodes)))

/-- A selector with no wildcard: it neither ends nor starts with `*`. -/
def isExactName (p : String) : Prop :=
  p.data.getLast? ≠ some '*' ∧ p.data.head? ≠ some '*'

instance (p : String) : Decidable (isExactName p) :=
  inferInstanceAs (Decidable (_ ∧ _))

/-! ### Heap model of the pruning pass

The TypeScript pruning pass mutates each included node in place:
`node.dependencies = matchPatterns(node.dependencies, includedNodeNames)`.
To reason about what this writes, the pass is also modelled over an
explicit heap of arrays: every `dependencies` field is a reference into
the heap, translation copies the reference of the source entity, and the
assignment allocates a fresh cell instead of writing through the shared
reference. -/

/-- A node whose `dependencies` field is a reference to a heap cell. -/
structure HeapNode where
  name : String
  depsRef : Nat
deriving DecidableEq

/-- Read a heap cell. -/
def readArr (heap : List (List String)) (r : Nat) : List String :=
  heap.getD r []

/-- The pruning pass at heap level: for each node in order, compute
`matchPatterns` of the referenced array, allocate the result as a fresh
cell, and point the node's field at it.  No existing cell is written. -/
def pruneNodesHeap (included : List String) :
    List HeapNode → List (List String) → List HeapNode × List (List String)
  | [], heap => ([], heap)
  | nd :: rest, heap =>
    ({ nd with depsRef := heap.length } ::
        (pruneNodesHeap included rest
          (heap ++ [matchPatterns (readArr heap nd.depsRef) included])).1,
      (pruneNodesHeap included rest
        (heap ++ [matchPatterns (readArr heap nd.depsRef) included])).2)

/-! ### Concrete fixtures for witnesses -/

/-- An adapter producing no tasks, for concrete evaluations. -/
def adapterNone : Adapter := fun _ _ => []

/-- Materializations `A → B`, `B`, and an independent operation `C`. -/
def gABC : CompiledGraph :=
  { materializations := [⟨"A", ["B"], [], [], []⟩, ⟨"B", [], [], [], []⟩]
    operations := [⟨"C", [], []⟩] }

/-- Operations forming the cycle `A → B → C → A`. -/
def gCycle : CompiledGraph :=
  { operations := [⟨"A", ["B"], []⟩, ⟨"B", ["C"], []⟩, ⟨"C", ["A"], []⟩] }

/-- An operation depending on itself. -/
def gSelf : CompiledGraph := { operations := [⟨"A", ["A"], []⟩] }

/-- An operation with a dependency on a non-existent node. -/
def gMissing : CompiledGraph := { operations := [⟨"X", ["Y"], []⟩] }

/-- Two materializations and an operation whose declared dependency
order `["B", "A"]` differs from translation order. -/
def gOrder : CompiledGraph :=
  { materializations := [⟨"A", [], [], [], []⟩, ⟨"B", [], [], [], []⟩]
    operations := [⟨"X", ["B", "A"], []⟩] }

/-- A materialization, an operation and an assertion all named `X`,
plus an operation `Y` depending on `X`. -/
def gShadow : CompiledGraph :=
  { materializations := [⟨"X", [], [], [], []⟩]
    operations := [⟨"X", [], []⟩, ⟨"Y", ["X"], []⟩]
    assertions := [⟨"X", [], []⟩] }

/-- The default run configuration: select everything. -/
def rcAll : RunConfig := {}

/-- The execution graph `build` returns for `gShadow` under the default
run configuration: all three nodes named `X` survive, and `Y`'s pruned
dependency list repeats `X` once per duplicate in the name list. -/
def gShadowOut : ExecutionGraph :=
  { projectConfig := {}
    runConfig := {}
    nodes := [{ name := "X", dependencies := [], tasks := [] },
              { name := "X", dependencies := [], tasks := [] },
              { name := "Y", dependencies := ["X", "X", "X"], tasks := [] },
              { name := "X", dependencies := [], tasks := [] }] }

/-- The execution graph `build` returns for `gOrder` under the default
run configuration: `X`'s dependencies come back in candidate order
`["A", "B"]`, not declared order `["B", "A"]`. -/
def gOrderOut : ExecutionGraph :=
  { projectConfig := {}
    runConfig := {}
    nodes := [{ name := "A", dependencies := [], tasks := [] },
              { name := "B", dependencies := [], tasks := [] },
              { name := "X", dependencies := ["A", "B"], tasks := [] }] }

/-- The execution graph `build` returns for `gABC` when selecting `A`
with dependency expansion. -/
def gABCExpandedOut : ExecutionGraph :=
  { projectConfig := {}
    runConfig := { nodes := ["A"], includeDependencies := true }
    nodes := [{ name := "A", dependencies := ["B"], tasks := [] },
              { name := "B", dependencies := [], tasks := [] }] }

/-- Select only `A`, without dependency expansion. -/
def rcA : RunConfig := { nodes := ["A"] }

/-- Select `A` and expand to transitive dependencies. -/
def rcADeps : RunConfig := { nodes := ["A"], includeDependencies := true }

/-- A materialization with one pre, one post and one embedded
assertion. -/
def mRich : Materialization := ⟨"M", [], ["pre1"], ["post1"], ["check1"]⟩

/-! ## Basic lemmas about the pattern matcher and name resolution -/

theorem mem_matchPatterns {ps cs : List String} {x : String} :
    x ∈ matchPatterns ps cs ↔ x ∈ cs ∧ ∃ p ∈ ps, matchesPattern p x := by
  simp [matchPatterns, List.mem_filter, List.any_eq_true]

theorem matchPatterns_subset {ps cs : List String} {x : String}
    (h : x ∈ matchPatterns ps cs) : x ∈ cs :=
  (mem_matchPatterns.mp h).1

theorem resolveIdx_lt {nodes : List ExecutionNode} {nm : String} {j : Nat}
    (h : resolveIdx nodes nm = some j) : j < nodes.length := by
  induction nodes generalizing j with
  | nil => simp [resolveIdx] at h
  | cons nd rest ih =>
    simp only [resolveIdx] at h
    cases hr : resolveIdx rest nm with
    | some k =>
      rw [hr] at h
      cases h
      exact Nat.succ_lt_succ (ih hr)
    | none =>
      rw [hr] at h
      by_cases hn : nd.name = nm
      · rw [if_pos hn] at h
        cases h
        exact Nat.succ_pos _
      · rw [if_neg hn] at h
        cases h

theorem resolveIdx_name {nodes : List ExecutionNode} {nm : String} {j : Nat}
    (h : resolveIdx nodes nm = some j) : nameAt nodes j = nm := by
  induction nodes generalizing j with
  | nil => simp [resolveIdx] at h
  | cons nd rest ih =>
    simp only [resolveIdx] at h
    cases hr : resolveIdx rest nm with
    | some k =>
      rw [hr] at h
      cases h
      simpa [nameAt, nodeAt] using ih hr
    | none =>
      rw [hr] at h
      by_cases hn : nd.name = nm
      · rw [if_pos hn] at h
        cases h
        simpa [nameAt, nodeAt] using hn
      · rw [if_neg hn] at h
        cases h

theorem resolveIdx_none_of {nodes : List ExecutionNode} {nm : String}
    (h : resolveIdx nodes nm = none) : ∀ nd ∈ nodes, nd.name ≠ nm := by
  induction nodes with
  | nil => simp
  | cons nd rest ih =>
    simp only [resolveIdx] at h
    cases hr : resolveIdx rest nm with
    | some k => rw [hr] at h; cases h
    | none =>
      rw [hr] at h
      by_cases hn : nd.name = nm
      · simp [hn] at h
      · intro x hx
        rcases List.mem_cons.mp hx with rfl | hx'
        · exact hn
        · exact ih hr x hx'

theorem resolveIdx_last {nodes : List ExecutionNode} {nm : String} {j : Nat}
    (h : resolveIdx nodes nm = some j) :
    ∀ k, j < k → k < nodes.length → nameAt nodes k ≠ nm := by
  induction nodes generalizing j with
  | nil => simp [resolveIdx] at h
  | cons nd rest ih =>
    simp only [resolveIdx] at h
    cases hr : resolveIdx rest nm with
    | some m =>
      rw [hr] at h
      cases h
      intro k hk hklen
      cases k with
      | zero => omega
      | succ k' =>
        have := ih hr k' (Nat.lt_of_succ_lt_succ hk)
          (Nat.lt_of_succ_lt_succ (by simpa using hklen))
        simpa [nameAt, nodeAt] using this
    | none =>
      rw [hr] at h
      by_cases hn : nd.name = nm
      · simp [hn] at h
        intro k hk hklen
        cases k with
        | zero => omega
        | succ k' =>
          intro hc
          have : resolveIdx rest nm ≠ none := by
            have hmem : nm ∈ rest.map (fun x => x.name) := by
              have hk' : k' < rest.length := by simpa using hklen
              have : nameAt rest k' = nm := by
                simpa [nameAt, nodeAt] using hc
              rw [← this]
              simp only [nameAt, nodeAt]
              rw [List.getD_eq_getElem _ _ hk']
              exact List.mem_map_of_mem _ (List.getElem_mem hk')
            intro hnone
            rw [List.mem_map] at hmem
            obtain ⟨x, hx, hxnm⟩ := hmem
            exact (resolveIdx_none_of hnone x hx) hxnm
          exact this hr
      · simp [hn] at h

/-! ## Lemmas about the referential-integrity check -/

theorem checkDepsOfNode_ok_iff {nm : String} {allNames deps : List String} :
    checkDepsOfNode nm allNames deps = .ok () ↔ ∀ d ∈ deps, d ∈ allNames := by
  induction deps with
  | nil => simp [checkDepsOfNode]
  | cons d rest ih =>
    by_cases h : allNames.contains d
    · simp only [checkDepsOfNode, if_pos h]
      rw [ih]
      have hd : d ∈ allNames := by simpa using h
      constructor
      · intro hall x hx
        rcases List.mem_cons.mp hx with rfl | hx'
        · exact hd
        · exact hall x hx'
      · intro hall x hx
        exact hall x (List.mem_cons_of_mem _ hx)
    · simp only [checkDepsOfNode, if_neg h]
      constructor
      · intro hc
        exact Except.noConfusion hc
      · intro hall
        exact absurd (by simpa using hall d (List.mem_cons_self _ _)) h

theorem checkDepsOfNode_error {nm : String} {allNames deps : List String}
    {e : String} (h : checkDepsOfNode nm allNames deps = .error e) :
    ∃ d ∈ deps, d ∉ allNames ∧ e = missingDepMsg nm d := by
  induction deps with
  | nil => exact absurd h (by simp [checkDepsOfNode])
  | cons d rest ih =>
    by_cases hc : allNames.contains d
    · rw [checkDepsOfNode, if_pos hc] at h
      obtain ⟨x, hx, hxn, hxe⟩ := ih h
      exact ⟨x, List.mem_cons_of_mem _ hx, hxn, hxe⟩
    · rw [checkDepsOfNode, if_neg hc] at h
      cases h
      exact ⟨d, List.mem_cons_self _ _, by simpa using hc, rfl⟩

theorem checkAllDeps_ok_iff {allNames : List String}
    {nodes : List ExecutionNode} :
    checkAllDeps allNames nodes = .ok () ↔
      ∀ nd ∈ nodes, ∀ d ∈ nd.dependencies, d ∈ allNames := by
  induction nodes with
  | nil => simp [checkAllDeps]
  | cons nd rest ih =>
    simp only [checkAllDeps]
    cases hc : checkDepsOfNode nd.name allNames nd.dependencies with
    | ok u =>
      cases u
      rw [ih]
      constructor
      · intro hall x hx
        rcases List.mem_cons.mp hx with rfl | hx'
        · exact fun d hd => checkDepsOfNode_ok_iff.mp hc d hd
        · exact hall x hx'
      · intro hall x hx
        exact hall x (List.mem_cons_of_mem _ hx)
    | error e =>
      constructor
      · intro hcon
        exact Except.noConfusion hcon
      · intro hall
        obtain ⟨d, hd, hdn, _⟩ := checkDepsOfNode_error hc
        exact absurd (hall nd (List.mem_cons_self _ _) d hd) hdn

theorem checkAllDeps_error {allNames : List String}
    {nodes : List ExecutionNode} {e : String}
    (h : checkAllDeps allNames nodes = .error e) :
    ∃ nd ∈ nodes, ∃ d ∈ nd.dependencies,
      d ∉ allNames ∧ e = missingDepMsg nd.name d := by
  induction nodes with
  | nil => exact absurd h (by simp [checkAllDeps])
  | cons nd rest ih =>
    rw [checkAllDeps] at h
    cases hc : checkDepsOfNode nd.name allNames nd.dependencies with
    | ok u =>
      rw [hc] at h
      obtain ⟨x, hx, d, hd, hdn, hde⟩ := ih h
      exact ⟨x, List.mem_cons_of_mem _ hx, d, hd, hdn, hde⟩
    | error e' =>
      rw [hc] at h
      cases h
      obtain ⟨d, hd, hdn, hde⟩ := checkDepsOfNode_error hc
      exact ⟨nd, List.mem_cons_self _ _, d, hd, hdn, hde⟩

/-! ## Lemmas about selection and expansion -/

theorem matchPatterns_nil (cs : List String) : matchPatterns [] cs = [] := by
  simp [matchPatterns]

theorem mem_addNewNames {acc found : List String} {x : String} :
    x ∈ addNewNames acc found ↔ x ∈ acc ∨ x ∈ found := by
  induction found generalizing acc with
  | nil => simp [addNewNames]
  | cons nm rest ih =>
    rw [addNewNames, ih]
    by_cases h : acc.contains nm
    · have : nm ∈ acc := by simpa using h
      rw [if_pos h]
      constructor
      · rintro (hx | hx)
        · exact Or.inl hx
        · exact Or.inr (List.mem_cons_of_mem _ hx)
      · rintro (hx | hx)
        · exact Or.inl hx
        · rcases List.mem_cons.mp hx with rfl | hx'
          · exact Or.inl this
          · exact Or.inr hx'
    · rw [if_neg h]
      simp only [List.mem_append, List.mem_singleton, List.mem_cons]
      tauto

theorem addNewNames_extends (acc found : List String) :
    ∃ ext, addNewNames acc found = acc ++ ext ∧
      ∀ x ∈ ext, x ∉ acc ∧ x ∈ found := by
  induction found generalizing acc with
  | nil => exact ⟨[], by simp [addNewNames], by simp⟩
  | cons nm rest ih =>
    rw [addNewNames]
    by_cases h : acc.contains nm
    · rw [if_pos h]
      obtain ⟨ext, he, hp⟩ := ih acc
      exact ⟨ext, he, fun x hx =>
        ⟨(hp x hx).1, List.mem_cons_of_mem _ (hp x hx).2⟩⟩
    · rw [if_neg h]
      obtain ⟨ext, he, hp⟩ := ih (acc ++ [nm])
      refine ⟨nm :: ext, by simpa using he, ?_⟩
      intro x hx
      rcases List.mem_cons.mp hx with rfl | hx'
      · exact ⟨by simpa using h, List.mem_cons_self _ _⟩
      · refine ⟨fun hxa => (hp x hx').1 (List.mem_append_left _ hxa),
          List.mem_cons_of_mem _ (hp x hx').2⟩

theorem foundNames_subset {allNames : List String} {nd : ExecutionNode}
    {x : String} (h : x ∈ foundNames allNames nd) : x ∈ allNames := by
  rw [foundNames] at h
  by_cases hd : nd.dependencies.isEmpty
  · rw [if_pos hd] at h
    cases h
  · rw [if_neg hd] at h
    exact matchPatterns_subset h

theorem foundNames_eq (allNames : List String) (nd : ExecutionNode) :
    foundNames allNames nd = matchPatterns nd.dependencies allNames := by
  rw [foundNames]
  by_cases hd : nd.dependencies.isEmpty
  · rw [if_pos hd, List.isEmpty_iff.mp hd, matchPatterns_nil]
  · rw [if_neg hd]

theorem mem_expandOver {allNames acc : List String}
    {L : List ExecutionNode} {x : String} :
    x ∈ expandOver allNames acc L ↔
      x ∈ acc ∨ ∃ nd ∈ L, x ∈ foundNames allNames nd := by
  induction L generalizing acc with
  | nil => simp [expandOver]
  | cons nd rest ih =>
    rw [expandOver, ih]
    rw [show (if nd.dependencies.isEmpty then []
        else matchPatterns nd.dependencies allNames) = foundNames allNames nd
      from rfl]
    rw [mem_addNewNames]
    constructor
    · rintro ((hx | hx) | ⟨y, hy, hxy⟩)
      · exact Or.inl hx
      · exact Or.inr ⟨nd, List.mem_cons_self _ _, hx⟩
      · exact Or.inr ⟨y, List.mem_cons_of_mem _ hy, hxy⟩
    · rintro (hx | ⟨y, hy, hxy⟩)
      · exact Or.inl (Or.inl hx)
      · rcases List.mem_cons.mp hy with rfl | hy'
        · exact Or.inl (Or.inr hxy)
        · exact Or.inr ⟨y, hy', hxy⟩

theorem expandOver_extends (allNames acc : List String)
    (L : List ExecutionNode) :
    ∃ ext, expandOver allNames acc L = acc ++ ext ∧
      ∀ x ∈ ext, x ∉ acc ∧ x ∈ allNames := by
  induction L generalizing acc with
  | nil => exact ⟨[], by simp [expandOver], by simp⟩
  | cons nd rest ih =>
    rw [expandOver]
    obtain ⟨e₁, he₁, hp₁⟩ := addNewNames_extends acc
      (if nd.dependencies.isEmpty then []
       else matchPatterns nd.dependencies allNames)
    rw [he₁]
    obtain ⟨e₂, he₂, hp₂⟩ := ih (acc ++ e₁)
    rw [he₂, List.append_assoc]
    refine ⟨e₁ ++ e₂, rfl, ?_⟩
    intro x hx
    rcases List.mem_append.mp hx with hx₁ | hx₂
    · exact ⟨(hp₁ x hx₁).1, @foundNames_subset allNames nd x
        (by rw [foundNames]; exact (hp₁ x hx₁).2)⟩
    · exact ⟨fun hxa => (hp₂ x hx₂).1 (List.mem_append_left _ hxa),
        (hp₂ x hx₂).2⟩

theorem expandStep_extends (nodes : List ExecutionNode)
    (allNames inc : List String) :
    ∃ ext, expandStep nodes allNames inc = inc ++ ext ∧
      ∀ x ∈ ext, x ∉ inc ∧ x ∈ allNames := by
  exact expandOver_extends allNames inc _

theorem expandStep_mem_of {nodes : List ExecutionNode}
    {allNames inc : List String} {x : String}
    (h : x ∈ expandStep nodes allNames inc) : x ∈ inc ∨ x ∈ allNames := by
  obtain ⟨ext, he, hp⟩ := expandStep_extends nodes allNames inc
  rw [he] at h
  rcases List.mem_append.mp h with hx | hx
  · exact Or.inl hx
  · exact Or.inr (hp x hx).2

theorem expandStep_supset {nodes : List ExecutionNode}
    {allNames inc : List String} {x : String} (h : x ∈ inc) :
    x ∈ expandStep nodes allNames inc := by
  obtain ⟨ext, he, _⟩ := expandStep_extends nodes allNames inc
  rw [he]
  exact List.mem_append_left _ h

theorem expandMany_subset {nodes : List ExecutionNode}
    {allNames : List String} (k : Nat) {inc : List String}
    (hin : ∀ x ∈ inc, x ∈ allNames) {x : String}
    (h : x ∈ expandMany nodes allNames k inc) : x ∈ allNames := by
  induction k generalizing inc with
  | zero => exact hin x h
  | succ k ih =>
    rw [expandMany] at h
    refine ih (fun y hy => ?_) h
    rcases expandStep_mem_of hy with hy' | hy'
    · exact hin y hy'
    · exact hy'

theorem expandMany_supset {nodes : List ExecutionNode}
    {allNames : List String} (k : Nat) {inc : List String} {x : String}
    (h : x ∈ inc) : x ∈ expandMany nodes allNames k inc := by
  induction k generalizing inc with
  | zero => exact h
  | succ k ih =>
    rw [expandMany]
    exact ih (expandStep_supset h)

theorem initialIncluded_subset {rc : RunConfig} {names : List String}
    {x : String} (h : x ∈ initialIncluded rc names) : x ∈ names := by
  rw [initialIncluded] at h
  by_cases hn : rc.nodes.isEmpty
  · rwa [if_pos hn] at h
  · rw [if_neg hn] at h
    exact matchPatterns_subset h

theorem finalIncluded_subset {nodes : List ExecutionNode} {rc : RunConfig}
    {x : String} (h : x ∈ finalIncluded nodes rc) : x ∈ nodeNames nodes := by
  rw [finalIncluded] at h
  by_cases hd : rc.includeDependencies
  · rw [if_pos hd] at h
    exact expandMany_subset _ (fun y hy => initialIncluded_subset hy) h
  · rw [if_neg hd] at h
    exact initialIncluded_subset h

/-! ## Shape of a successful build -/

theorem build_ok_iff {f : Adapter} {g : CompiledGraph} {rc : RunConfig}
    {G : ExecutionGraph} :
    build f g rc = .ok G ↔
      checkAllDeps (nodeNames (translatedNodes f g rc)) (translatedNodes f g rc) = .ok ()
      ∧ checkCircularAll (translatedNodes f g rc) = .ok
      ∧ G = { projectConfig := g.projectConfig
              runConfig := rc
              nodes := (selectedNodes (translatedNodes f g rc) rc).map
                (pruneNode (finalIncluded (translatedNodes f g rc) rc)) } := by
  unfold build
  cases hd : checkAllDeps (nodeNames (translatedNodes f g rc)) (translatedNodes f g rc) with
  | error e =>
    constructor
    · intro h
      exact Except.noConfusion h
    · rintro ⟨h, _, _⟩
      exact Except.noConfusion h
  | ok u =>
    cases u
    cases hc : checkCircularAll (translatedNodes f g rc) with
    | ok =>
      constructor
      · intro h
        injection h with h
        exact ⟨rfl, rfl, h.symm⟩
      · rintro ⟨_, _, rfl⟩
        rfl
    | err e =>
      constructor
      · intro h
        exact Except.noConfusion h
      · rintro ⟨_, h, _⟩
        exact CircRes.noConfusion h
    | out =>
      constructor
      · intro h
        exact Except.noConfusion h
      · rintro ⟨_, h, _⟩
        exact CircRes.noConfusion h

/-! ## Lemmas about the cycle-detecting traversal -/

theorem resolveIdx_some_of_mem {nodes : List ExecutionNode} {nm : String}
    (h : nm ∈ nodeNames nodes) : ∃ j, resolveIdx nodes nm = some j := by
  cases hr : resolveIdx nodes nm with
  | some j => exact ⟨j, rfl⟩
  | none =>
    rw [nodeNames, List.mem_map] at h
    obtain ⟨nd, hnd, hname⟩ := h
    exact absurd hname (resolveIdx_none_of hr nd hnd)

theorem edgeStep_src_lt {nodes : List ExecutionNode} {i j : Nat}
    (h : edgeStep nodes i j) : i < nodes.length := by
  by_contra hge
  obtain ⟨d, hd, _⟩ := h
  rw [nodeAt, List.getD_eq_default _ _ (Nat.le_of_not_lt hge)] at hd
  cases hd

theorem edgeStep_tgt_lt {nodes : List ExecutionNode} {i j : Nat}
    (h : edgeStep nodes i j) : j < nodes.length := by
  obtain ⟨d, _, hr⟩ := h
  exact resolveIdx_lt hr

theorem runDeps_ok {visit : Nat → CircRes} {nodes : List ExecutionNode} :
    ∀ {l : List String}, runDeps visit nodes l = .ok →
      ∀ d ∈ l, ∃ j, resolveIdx nodes d = some j ∧ visit j = .ok := by
  intro l
  induction l with
  | nil => intro _ d hd; cases hd
  | cons d rest ih =>
    intro h x hx
    rw [runDeps] at h
    cases hr : resolveIdx nodes d with
    | none => rw [hr] at h; cases h
    | some j =>
      rw [hr] at h
      dsimp only at h
      cases hv : visit j with
      | ok =>
        rw [hv] at h
        dsimp only at h
        rcases List.mem_cons.mp hx with rfl | hx'
        · exact ⟨j, hr, hv⟩
        · exact ih h x hx'
      | err e => rw [hv] at h; dsimp only at h; cases h
      | out => rw [hv] at h; dsimp only at h; cases h

theorem runDeps_err {visit : Nat → CircRes} {nodes : List ExecutionNode} :
    ∀ {l : List String} {e : String}, runDeps visit nodes l = .err e →
      (∃ d ∈ l, resolveIdx nodes d = none ∧ e = unresolvedMsg) ∨
      (∃ d ∈ l, ∃ j, resolveIdx nodes d = some j ∧ visit j = .err e) := by
  intro l
  induction l with
  | nil => intro e h; cases h
  | cons d rest ih =>
    intro e h
    rw [runDeps] at h
    cases hr : resolveIdx nodes d with
    | none =>
      rw [hr] at h
      dsimp only at h
      cases h
      exact Or.inl ⟨d, List.mem_cons_self _ _, hr, rfl⟩
    | some j =>
      rw [hr] at h
      dsimp only at h
      cases hv : visit j with
      | ok =>
        rw [hv] at h
        dsimp only at h
        rcases ih h with ⟨x, hx, hxr, hxe⟩ | ⟨x, hx, k, hk, hke⟩
        · exact Or.inl ⟨x, List.mem_cons_of_mem _ hx, hxr, hxe⟩
        · exact Or.inr ⟨x, List.mem_cons_of_mem _ hx, k, hk, hke⟩
      | err e' =>
        rw [hv] at h
        dsimp only at h
        cases h
        exact Or.inr ⟨d, List.mem_cons_self _ _, j, hr, hv⟩
      | out => rw [hv] at h; dsimp only at h; cases h

theorem runDeps_out {visit : Nat → CircRes} {nodes : List ExecutionNode} :
    ∀ {l : List String}, runDeps visit nodes l = .out →
      ∃ d ∈ l, ∃ j, resolveIdx nodes d = some j ∧ visit j = .out := by
  intro l
  induction l with
  | nil => intro h; cases h
  | cons d rest ih =>
    intro h
    rw [runDeps] at h
    cases hr : resolveIdx nodes d with
    | none => rw [hr] at h; cases h
    | some j =>
      rw [hr] at h
      dsimp only at h
      cases hv : visit j with
      | ok =>
        rw [hv] at h
        dsimp only at h
        obtain ⟨x, hx, k, hk, hko⟩ := ih h
        exact ⟨x, List.mem_cons_of_mem _ hx, k, hk, hko⟩
      | err e => rw [hv] at h; dsimp only at h; cases h
      | out =>
        exact ⟨d, List.mem_cons_self _ _, j, hr, hv⟩

theorem checkCircularFuel_ok {nodes : List ExecutionNode} {f i : Nat}
    {chain : List Nat}
    (h : checkCircularFuel nodes (f + 1) i chain = .ok) :
    i ∉ chain ∧ ∀ d ∈ (nodeAt nodes i).dependencies,
      ∃ j, resolveIdx nodes d = some j ∧
        checkCircularFuel nodes f j (chain ++ [i]) = .ok := by
  rw [checkCircularFuel] at h
  by_cases hi : i ∈ chain
  · rw [if_pos hi] at h
    cases h
  · rw [if_neg hi] at h
    exact ⟨hi, runDeps_ok h⟩

theorem checkCircularFuel_err_cases {nodes : List ExecutionNode} {f i : Nat}
    {chain : List Nat} {e : String}
    (h : checkCircularFuel nodes (f + 1) i chain = .err e) :
    (i ∈ chain ∧ e = chainMsg nodes chain i) ∨
    (i ∉ chain ∧
      ((∃ d ∈ (nodeAt nodes i).dependencies,
          resolveIdx nodes d = none ∧ e = unresolvedMsg) ∨
       (∃ d ∈ (nodeAt nodes i).dependencies, ∃ j,
          resolveIdx nodes d = some j ∧
            checkCircularFuel nodes f j (chain ++ [i]) = .err e))) := by
  rw [checkCircularFuel] at h
  by_cases hi : i ∈ chain
  · rw [if_pos hi] at h
    cases h
    exact Or.inl ⟨hi, rfl⟩
  · rw [if_neg hi] at h
    exact Or.inr ⟨hi, runDeps_err h⟩

theorem nodup_lt_length_le {l : List Nat} {n : Nat} (hnd : l.Nodup)
    (hlt : ∀ x ∈ l, x < n) : l.length ≤ n := by
  have hsub : l.toFinset ⊆ Finset.range n := by
    intro x hx
    rw [Finset.mem_range]
    exact hlt x (List.mem_toFinset.mp hx)
  have := Finset.card_le_card hsub
  rwa [List.toFinset_card_of_nodup hnd, Finset.card_range] at this

theorem ok_walk_nodup {nodes : List ExecutionNode} :
    ∀ (p : List Nat) (f i : Nat) (chain : List Nat),
      chain.Nodup → checkCircularFuel nodes f i chain = .ok →
      (i :: p).Chain' (edgeStep nodes) → p.length < f →
      (chain ++ i :: p).Nodup := by
  intro p
  induction p with
  | nil =>
    intro f i chain hnd hok _ hf
    cases f with
    | zero => cases hok
    | succ f' =>
      obtain ⟨hi, _⟩ := checkCircularFuel_ok hok
      simp [List.nodup_append, hnd, hi]
  | cons j p' ih =>
    intro f i chain hnd hok hch hf
    cases f with
    | zero => cases hok
    | succ f' =>
      obtain ⟨hi, hdeps⟩ := checkCircularFuel_ok hok
      rw [List.chain'_cons] at hch
      obtain ⟨hij, hch'⟩ := hch
      obtain ⟨d, hd, hrd⟩ := hij
      obtain ⟨j₂, hj₂, hok'⟩ := hdeps d hd
      rw [hrd] at hj₂
      injection hj₂ with hj₂
      subst hj₂
      have hnd' : (chain ++ [i]).Nodup := by
        simp [List.nodup_append, hnd, hi]
      have := ih f' j (chain ++ [i]) hnd' hok' hch'
        (by simpa using Nat.lt_of_succ_lt_succ hf)
      simpa [List.append_assoc] using this

theorem circFold_frozen (nodes : List ExecutionNode) (l : List Nat)
    {r : CircRes} (hr : r ≠ .ok) : l.foldl (circStep nodes) r = r := by
  induction l with
  | nil => rfl
  | cons i rest ih =>
    rw [List.foldl_cons]
    have hstep : circStep nodes r i = r := by
      cases r with
      | ok => exact absurd rfl hr
      | err e => rfl
      | out => rfl
    rw [hstep]
    exact ih

theorem circFold_ok {nodes : List ExecutionNode} :
    ∀ {l : List Nat} {r : CircRes}, l.foldl (circStep nodes) r = .ok →
      r = .ok ∧ ∀ i ∈ l, checkCircularFuel nodes (nodes.length + 1) i [] = .ok := by
  intro l
  induction l with
  | nil => intro r h; exact ⟨h, by simp⟩
  | cons i rest ih =>
    intro r h
    rw [List.foldl_cons] at h
    obtain ⟨hstep, hrest⟩ := ih h
    cases r with
    | ok =>
      refine ⟨rfl, ?_⟩
      intro x hx
      rcases List.mem_cons.mp hx with rfl | hx'
      · rw [circStep] at hstep
        exact hstep
      · exact hrest x hx'
    | err e => simp [circStep] at hstep
    | out => simp [circStep] at hstep

theorem checkCircularAll_ok_root {nodes : List ExecutionNode}
    (h : checkCircularAll nodes = .ok) :
    ∀ i < nodes.length, checkCircularFuel nodes (nodes.length + 1) i [] = .ok := by
  intro i hi
  exact (circFold_ok h).2 i (List.mem_range.mpr hi)

theorem circFold_err {nodes : List ExecutionNode} :
    ∀ {l : List Nat} {e : String}, l.foldl (circStep nodes) .ok = .err e →
      ∃ i ∈ l, checkCircularFuel nodes (nodes.length + 1) i [] = .err e := by
  intro l
  induction l with
  | nil => intro e h; cases h
  | cons i rest ih =>
    intro e h
    rw [List.foldl_cons] at h
    cases hs : circStep nodes .ok i with
    | ok =>
      rw [hs] at h
      obtain ⟨x, hx, hxe⟩ := ih h
      exact ⟨x, List.mem_cons_of_mem _ hx, hxe⟩
    | err e' =>
      rw [hs] at h
      rw [circFold_frozen nodes rest (by intro hc; cases hc)] at h
      cases h
      rw [circStep] at hs
      exact ⟨i, List.mem_cons_self _ _, hs⟩
    | out =>
      rw [hs] at h
      rw [circFold_frozen nodes rest (by intro hc; cases hc)] at h
      cases h

theorem checkCircularAll_err_root {nodes : List ExecutionNode} {e : String}
    (h : checkCircularAll nodes = .err e) :
    ∃ i < nodes.length, checkCircularFuel nodes (nodes.length + 1) i [] = .err e := by
  obtain ⟨i, hi, hie⟩ := circFold_err h
  exact ⟨i, List.mem_range.mp hi, hie⟩

theorem checkCircularFuel_ne_out {nodes : List ExecutionNode} :
    ∀ (f i : Nat) (chain : List Nat),
      chain.Nodup → (∀ x ∈ chain, x < nodes.length) → i < nodes.length →
      nodes.length + 1 ≤ f + chain.length →
      checkCircularFuel nodes f i chain ≠ .out := by
  intro f
  induction f with
  | zero =>
    intro i chain hnd hlt _ hfuel
    exact absurd (nodup_lt_length_le hnd hlt) (by omega)
  | succ f' ih =>
    intro i chain hnd hlt hi hfuel hout
    rw [checkCircularFuel] at hout
    by_cases hic : i ∈ chain
    · rw [if_pos hic] at hout
      cases hout
    · rw [if_neg hic] at hout
      obtain ⟨d, _, j, hj, hjout⟩ := runDeps_out hout
      refine ih j (chain ++ [i]) ?_ ?_ (resolveIdx_lt hj) (by simp; omega) hjout
      · simp [List.nodup_append, hnd, hic]
      · intro x hx
        rcases List.mem_append.mp hx with hx' | hx'
        · exact hlt x hx'
        · rw [List.mem_singleton.mp hx']
          exact hi

theorem checkCircularAll_ne_out (nodes : List ExecutionNode) :
    checkCircularAll nodes ≠ .out := by
  rw [checkCircularAll]
  generalize hl : List.range nodes.length = l
  have hmem : ∀ i ∈ l, i < nodes.length := by
    intro i hi
    rw [← hl] at hi
    exact List.mem_range.mp hi
  clear hl
  induction l with
  | nil => intro h; cases h
  | cons i rest ih =>
    rw [List.foldl_cons]
    cases hs : circStep nodes .ok i with
    | ok => exact ih (fun x hx => hmem x (List.mem_cons_of_mem _ hx))
    | err e =>
      rw [circFold_frozen nodes rest (by intro hc; cases hc)]
      intro h
      cases h
    | out =>
      rw [circStep] at hs
      exact absurd hs
        (checkCircularFuel_ne_out (nodes.length + 1) i []
          List.nodup_nil (by simp) (hmem i (List.mem_cons_self _ _)) (by simp))

theorem myGetLast_cons_ne {α : Type} (a : α) {t : List α} (h : t ≠ []) :
    (a :: t).getLast? = t.getLast? := by
  cases t with
  | nil => exact absurd rfl h
  | cons b t' => rfl

theorem myGetLast_append_ne {α : Type} (l₁ : List α) {l₂ : List α}
    (h : l₂ ≠ []) : (l₁ ++ l₂).getLast? = l₂.getLast? := by
  induction l₁ with
  | nil => rfl
  | cons x xs ih =>
    rw [List.cons_append,
      myGetLast_cons_ne x (fun hc => h (List.append_eq_nil.mp hc).2), ih]

theorem walk_tail_lt {nodes : List ExecutionNode} :
    ∀ (a : Nat) (t : List Nat), (a :: t).Chain' (edgeStep nodes) →
      ∀ x ∈ t, x < nodes.length := by
  intro a t
  induction t generalizing a with
  | nil => intro _ x hx; cases hx
  | cons b t' ih =>
    intro hch x hx
    rw [List.chain'_cons] at hch
    rcases List.mem_cons.mp hx with rfl | hx'
    · exact edgeStep_tgt_lt hch.1
    · exact ih b hch.2 x hx'

theorem closed_walk_pump {nodes : List ExecutionNode} {a : Nat} {t : List Nat}
    (hne : t ≠ []) (hch : (a :: t).Chain' (edgeStep nodes))
    (hlast : (a :: t).getLast? = some a) :
    ∀ k, ∃ w, (a :: w).Chain' (edgeStep nodes) ∧
      (a :: w).getLast? = some a ∧ w.length = k * t.length ∧
      ∀ x ∈ w, x ∈ t := by
  intro k
  induction k with
  | zero => exact ⟨[], List.chain'_singleton a, rfl, by simp, by simp⟩
  | succ k ih =>
    obtain ⟨w, hw, hwl, hwlen, hwmem⟩ := ih
    obtain ⟨t₀, t', rfl⟩ := List.exists_cons_of_ne_nil hne
    refine ⟨w ++ t₀ :: t', ?_, ?_, ?_, ?_⟩
    · rw [show a :: (w ++ t₀ :: t') = (a :: w) ++ t₀ :: t' from rfl,
        List.chain'_append]
      refine ⟨hw, hch.tail, ?_⟩
      intro x hx y hy
      rw [hwl] at hx
      obtain rfl := Option.mem_some_iff.mp hx
      obtain rfl := Option.mem_some_iff.mp hy
      exact (List.chain'_cons.mp hch).1
    · rw [show a :: (w ++ t₀ :: t') = (a :: w) ++ t₀ :: t' from rfl,
        myGetLast_append_ne _ (by intro hc; cases hc),
        ← myGetLast_cons_ne a (t := t₀ :: t') (by intro hc; cases hc)]
      exact hlast
    · rw [List.length_append, hwlen, Nat.succ_mul]
    · intro x hx
      rcases List.mem_append.mp hx with hx' | hx'
      · exact hwmem x hx'
      · exact hx'

theorem cycle_not_ok {nodes : List ExecutionNode} (hcyc : HasCycle nodes) :
    checkCircularAll nodes ≠ .ok := by
  intro hok
  obtain ⟨l, hch, hlen, hhl⟩ := hcyc
  cases l with
  | nil => simp at hlen
  | cons a t =>
    have htne : t ≠ [] := by
      intro hc
      subst hc
      simp at hlen
    have hlast : (a :: t).getLast? = some a := by
      rw [← hhl]
      rfl
    obtain ⟨w, hw, _, hwlen, hwmem⟩ :=
      closed_walk_pump htne hch hlast (nodes.length + 1)
    have ha : a < nodes.length := by
      obtain ⟨t₀, t', rfl⟩ := List.exists_cons_of_ne_nil htne
      exact edgeStep_src_lt (List.chain'_cons.mp hch).1
    have htpos : 1 ≤ t.length := by
      cases t with
      | nil => exact absurd rfl htne
      | cons _ _ => simp
    have hwlong : nodes.length ≤ w.length := by
      rw [hwlen]
      calc nodes.length ≤ (nodes.length + 1) * 1 := by omega
      _ ≤ (nodes.length + 1) * t.length := Nat.mul_le_mul_left _ htpos
    have hplen : (w.take nodes.length).length = nodes.length := by
      rw [List.length_take]
      omega
    have hchp : (a :: w.take nodes.length).Chain' (edgeStep nodes) := by
      rw [show a :: w.take nodes.length = (a :: w).take (nodes.length + 1) from
        List.take_succ_cons.symm]
      exact hw.take _
    have hroot := checkCircularAll_ok_root hok a ha
    have hnd := ok_walk_nodup (w.take nodes.length) (nodes.length + 1) a []
      List.nodup_nil hroot hchp (by omega)
    rw [List.nil_append] at hnd
    have hlt : ∀ x ∈ a :: w.take nodes.length, x < nodes.length := by
      intro x hx
      rcases List.mem_cons.mp hx with rfl | hx'
      · exact ha
      · exact walk_tail_lt a t hch x (hwmem x (List.mem_of_mem_take hx'))
    have hcontra := nodup_lt_length_le hnd hlt
    rw [List.length_cons, hplen] at hcontra
    omega

theorem checkCircularFuel_err_cycle {nodes : List ExecutionNode}
    (hres : ∀ nd ∈ nodes, ∀ d ∈ nd.dependencies, d ∈ nodeNames nodes) :
    ∀ (f i : Nat) (chain : List Nat) (e : String),
      (chain ++ [i]).Chain' (edgeStep nodes) →
      checkCircularFuel nodes f i chain = .err e →
      HasCycle nodes ∧ ∃ ch x, e = chainMsg nodes ch x ∧ x ∈ ch ∧
        (ch ++ [x]).Chain' (edgeStep nodes) := by
  intro f
  induction f with
  | zero => intro i chain e _ h; cases h
  | succ f' ih =>
    intro i chain e hch h
    rcases checkCircularFuel_err_cases h with ⟨hi, rfl⟩ | ⟨hi, hrest⟩
    · constructor
      · obtain ⟨u, v, rfl⟩ := List.append_of_mem hi
        have hsplit : (u ++ i :: v) ++ [i] = u ++ ((i :: v) ++ [i]) := by
          simp
        rw [hsplit] at hch
        refine ⟨(i :: v) ++ [i], (List.chain'_append.mp hch).2.1, by simp, ?_⟩
        rw [List.getLast?_concat]
        rfl
      · exact ⟨chain, i, rfl, hi, hch⟩
    · rcases hrest with ⟨d, hd, hnone, _⟩ | ⟨d, hd, j, hj, hrec⟩
      · exfalso
        have hilt : i < nodes.length := by
          by_contra hge
          rw [nodeAt, List.getD_eq_default _ _ (Nat.le_of_not_lt hge)] at hd
          cases hd
        have hmem : nodeAt nodes i ∈ nodes := by
          rw [nodeAt, List.getD_eq_getElem _ _ hilt]
          exact List.getElem_mem hilt
        obtain ⟨k, hk⟩ := resolveIdx_some_of_mem (hres _ hmem d hd)
        rw [hk] at hnone
        cases hnone
      · have hedge : edgeStep nodes i j := ⟨d, hd, hj⟩
        have hch' : ((chain ++ [i]) ++ [j]).Chain' (edgeStep nodes) := by
          rw [List.chain'_append]
          refine ⟨hch, List.chain'_singleton j, ?_⟩
          intro x hx y hy
          rw [List.getLast?_concat] at hx
          obtain rfl := Option.mem_some_iff.mp hx
          obtain rfl := Option.mem_some_iff.mp hy
          exact hedge
        exact ih j (chain ++ [i]) e hch' hrec

theorem checkCircularAll_err_iff {nodes : List ExecutionNode}
    (hres : ∀ nd ∈ nodes, ∀ d ∈ nd.dependencies, d ∈ nodeNames nodes) :
    (∃ e, checkCircularAll nodes = .err e) ↔ HasCycle nodes := by
  constructor
  · rintro ⟨e, he⟩
    obtain ⟨i, hilt, hie⟩ := checkCircularAll_err_root he
    exact (checkCircularFuel_err_cycle hres _ i [] e
      (by simp) hie).1
  · intro hcyc
    cases hr : checkCircularAll nodes with
    | ok => exact absurd hr (cycle_not_ok hcyc)
    | err e => exact ⟨e, rfl⟩
    | out => exact absurd hr (checkCircularAll_ne_out nodes)

theorem checkCircularAll_err_msg {nodes : List ExecutionNode}
    (hres : ∀ nd ∈ nodes, ∀ d ∈ nd.dependencies, d ∈ nodeNames nodes)
    {e : String} (he : checkCircularAll nodes = .err e) :
    ∃ ch x, e = chainMsg nodes ch x ∧ x ∈ ch ∧
      (ch ++ [x]).Chain' (edgeStep nodes) := by
  obtain ⟨i, hilt, hie⟩ := checkCircularAll_err_root he
  exact (checkCircularFuel_err_cycle hres _ i [] e
    (by simp) hie).2

/-! ## Fixed point of the expansion loop -/

theorem missingCount_le {allNames inc inc' : List String}
    (h : ∀ x ∈ inc, x ∈ inc') :
    missingCount allNames inc' ≤ missingCount allNames inc := by
  apply List.Sublist.length_le
  apply List.monotone_filter_right
  intro a ha
  simp only [Bool.not_eq_true', ← Bool.not_eq_true] at ha ⊢
  intro hc
  exact ha (by simpa using h a (by simpa using hc))

theorem missingCount_lt {allNames inc inc' : List String}
    (hsub : ∀ y ∈ inc, y ∈ inc') {x : String} (hx' : x ∈ inc')
    (hx : x ∉ inc) (hxa : x ∈ allNames) :
    missingCount allNames inc' < missingCount allNames inc := by
  have hle := @missingCount_le allNames inc inc' hsub
  rcases Nat.lt_or_ge (missingCount allNames inc') (missingCount allNames inc)
    with hlt | hge
  · exact hlt
  · exfalso
    have heq : missingCount allNames inc' = missingCount allNames inc := by
      omega
    have hsl : List.Sublist
        (allNames.dedup.filter (fun y => !(inc'.contains y)))
        (allNames.dedup.filter (fun y => !(inc.contains y))) := by
      apply List.monotone_filter_right
      intro a ha
      simp only [Bool.not_eq_true', ← Bool.not_eq_true] at ha ⊢
      intro hc
      exact ha (by simpa using hsub a (by simpa using hc))
    have hleq := (List.Sublist.length_eq hsl).mp heq
    have hmem : x ∈ allNames.dedup.filter (fun y => !(inc.contains y)) :=
      List.mem_filter.mpr ⟨List.mem_dedup.mpr hxa, by simpa using hx⟩
    rw [← hleq] at hmem
    have := (List.mem_filter.mp hmem).2
    simp at this
    exact this hx'

theorem expandStep_fixed_of_full {nodes : List ExecutionNode}
    {allNames inc : List String} (h : ∀ x ∈ allNames, x ∈ inc) :
    expandStep nodes allNames inc = inc := by
  obtain ⟨ext, he, hp⟩ := expandStep_extends nodes allNames inc
  cases hext : ext with
  | nil => rw [he, hext, List.append_nil]
  | cons x rest =>
    exfalso
    have hx := hp x (by rw [hext]; exact List.mem_cons_self _ _)
    exact hx.1 (h x hx.2)

theorem expandMany_fixed_point {nodes : List ExecutionNode}
    {allNames inc : List String} (h : expandStep nodes allNames inc = inc) :
    ∀ k, expandMany nodes allNames k inc = inc := by
  intro k
  induction k with
  | zero => rfl
  | succ k ih =>
    rw [expandMany, h]
    exact ih

theorem expandMany_stabilizes {nodes : List ExecutionNode}
    {allNames : List String} :
    ∀ (m : Nat) (inc : List String), missingCount allNames inc ≤ m →
      expandStep nodes allNames (expandMany nodes allNames m inc) =
        expandMany nodes allNames m inc := by
  intro m
  induction m with
  | zero =>
    intro inc hm
    have hfull : ∀ x ∈ allNames, x ∈ inc := by
      intro x hx
      by_contra hxin
      have : x ∈ allNames.dedup.filter (fun y => !(inc.contains y)) :=
        List.mem_filter.mpr ⟨List.mem_dedup.mpr hx, by simpa using hxin⟩
      have hnil : allNames.dedup.filter (fun y => !(inc.contains y)) = [] :=
        List.length_eq_zero.mp (Nat.le_zero.mp hm)
      rw [hnil] at this
      cases this
    rw [show expandMany nodes allNames 0 inc = inc from rfl]
    exact expandStep_fixed_of_full hfull
  | succ m ih =>
    intro inc hm
    by_cases hfix : expandStep nodes allNames inc = inc
    · rw [expandMany_fixed_point hfix]
      exact hfix
    · rw [expandMany]
      apply ih
      obtain ⟨ext, he, hp⟩ := expandStep_extends nodes allNames inc
      cases hext : ext with
      | nil =>
        exfalso
        rw [hext, List.append_nil] at he
        exact hfix he
      | cons x rest =>
        have hxmem : x ∈ expandStep nodes allNames inc := by
          rw [he, hext]
          exact List.mem_append_right _ (List.mem_cons_self _ _)
        have hx := hp x (by rw [hext]; exact List.mem_cons_self _ _)
        have hsub : ∀ y ∈ inc, y ∈ expandStep nodes allNames inc := by
          intro y hy
          rw [he]
          exact List.mem_append_left _ hy
        have := missingCount_lt hsub hxmem hx.1 hx.2
        omega

theorem expandMany_closed {nodes : List ExecutionNode} {inc : List String} :
    ∀ a ∈ expandMany nodes (nodeNames nodes) nodes.length inc,
      ∀ nd ∈ nodes, nd.name = a →
        ∀ b ∈ matchPatterns nd.dependencies (nodeNames nodes),
          b ∈ expandMany nodes (nodeNames nodes) nodes.length inc := by
  have hmc : missingCount (nodeNames nodes) inc ≤ nodes.length := by
    calc missingCount (nodeNames nodes) inc
        ≤ (nodeNames nodes).dedup.length :=
          List.Sublist.length_le (List.filter_sublist _)
      _ ≤ (nodeNames nodes).length :=
          List.Sublist.length_le (List.dedup_sublist _)
      _ = nodes.length := by rw [nodeNames, List.length_map]
  have hfix := @expandMany_stabilizes nodes (nodeNames nodes) nodes.length inc hmc
  intro a ha nd hnd hname b hb
  set S := expandMany nodes (nodeNames nodes) nodes.length inc with hS
  have hndf : nd ∈ nodes.filter (fun x => S.contains x.name) := by
    rw [List.mem_filter]
    exact ⟨hnd, by rw [hname]; simpa using ha⟩
  have hbf : b ∈ expandStep nodes (nodeNames nodes) S := by
    rw [expandStep]
    apply mem_expandOver.mpr
    exact Or.inr ⟨nd, hndf, by rw [foundNames_eq]; exact hb⟩
  rwa [hfix] at hbf

theorem reachable_in_expanded {nodes : List ExecutionNode}
    {inc : List String} {a b : String}
    (hr : Relation.ReflTransGen (nameEdge nodes) a b)
    (ha : a ∈ expandMany nodes (nodeNames nodes) nodes.length inc) :
    b ∈ expandMany nodes (nodeNames nodes) nodes.length inc := by
  induction hr with
  | refl => exact ha
  | tail hstep hedge ih =>
    obtain ⟨nd, hnd, hname, hmatch⟩ := hedge
    exact expandMany_closed _ ih nd hnd hname _ hmatch

/-! ## Shape of a failing build -/

theorem build_error_of_deps {f : Adapter} {g : CompiledGraph}
    {rc : RunConfig} {e : String}
    (h : checkAllDeps (nodeNames (translatedNodes f g rc))
      (translatedNodes f g rc) = .error e) :
    build f g rc = .error e := by
  unfold build
  rw [h]

theorem build_error_iff_circ {f : Adapter} {g : CompiledGraph}
    {rc : RunConfig}
    (hok : checkAllDeps (nodeNames (translatedNodes f g rc))
      (translatedNodes f g rc) = .ok ()) (e : String) :
    build f g rc = .error e ↔
      checkCircularAll (translatedNodes f g rc) = .err e := by
  unfold build
  rw [hok]
  cases hc : checkCircularAll (translatedNodes f g rc) with
  | ok =>
    constructor
    · intro h
      exact Except.noConfusion h
    · intro h
      exact CircRes.noConfusion h
  | err e' =>
    constructor
    · intro h
      injection h with h
      rw [h]
    · intro h
      injection h with h
      rw [h]
  | out => exact absurd hc (checkCircularAll_ne_out _)

/-- A dependency name somewhere in the translated node set that is not
the name of any translated node. -/
theorem dangling_dec (f : Adapter) (g : CompiledGraph) (rc : RunConfig) :
    (∃ nd ∈ translatedNodes f g rc, ∃ d ∈ nd.dependencies,
        d ∉ nodeNames (translatedNodes f g rc)) ∨
      ∀ nd ∈ translatedNodes f g rc, ∀ d ∈ nd.dependencies,
        d ∈ nodeNames (translatedNodes f g rc) := by
  by_cases h : ∀ nd ∈ translatedNodes f g rc, ∀ d ∈ nd.dependencies,
      d ∈ nodeNames (translatedNodes f g rc)
  · exact Or.inr h
  · left
    push_neg at h
    obtain ⟨nd, hnd, d, hd, hdn⟩ := h
    exact ⟨nd, hnd, d, hd, hdn⟩

/-! ## Claim theorems -/

/-- C5: every entity yields exactly one execution node, in translation
order (materializations, operations, assertions); dependencies are
copied through unmodified; a materialization node's tasks are statement
tasks for the pres, then the adapter tasks, then statement tasks for the
posts, then assertion tasks for the embedded assertions, strictly in
that order; an operation node's tasks are statement tasks for its
statements in declared order; an assertion node's tasks are assertion
tasks for its queries in declared order. -/
theorem c5_translation_complete (f : Adapter) (g : CompiledGraph)
    (rc : RunConfig) :
    (nodeNames (translatedNodes f g rc) =
      g.materializations.map (fun m => m.name)
        ++ g.operations.map (fun o => o.name)
        ++ g.assertions.map (fun a => a.name))
    ∧ (translatedNodes f g rc).length =
        g.materializations.length + g.operations.length + g.assertions.length
    ∧ (∀ m : Materialization,
        (buildMaterialization f rc m).name = m.name ∧
        (buildMaterialization f rc m).dependencies = m.dependencies ∧
        ∃ t₁ t₃ t₄ : List ExecutionTask,
          (buildMaterialization f rc m).tasks = t₁ ++ f m rc ++ t₃ ++ t₄ ∧
          t₁.map (fun t => t.statement) = m.pres ∧
          (∀ t ∈ t₁, t.type ≠ "assertion") ∧
          t₃.map (fun t => t.statement) = m.posts ∧
          (∀ t ∈ t₃, t.type ≠ "assertion") ∧
          t₄.map (fun t => t.statement) = m.assertions ∧
          (∀ t ∈ t₄, t.type = "assertion"))
    ∧ (∀ o : Operation,
        (buildOperation o).name = o.name ∧
        (buildOperation o).dependencies = o.dependencies ∧
        (buildOperation o).tasks.map (fun t => t.statement) = o.statements ∧
        ∀ t ∈ (buildOperation o).tasks, t.type = "statement")
    ∧ (∀ a : Assertion,
        (buildAssertion a).name = a.name ∧
        (buildAssertion a).dependencies = a.dependencies ∧
        (buildAssertion a).tasks.map (fun t => t.statement) = a.queries ∧
        ∀ t ∈ (buildAssertion a).tasks, t.type = "assertion") := by
  have hmapstmt : ∀ (ty : String) (l : List String),
      List.map (fun t => t.statement)
        (l.map (fun p => ({ type := ty, statement := p } : ExecutionTask))) = l := by
    intro ty l
    induction l with
    | nil => rfl
    | cons x xs ih => simp [ih]
  refine ⟨?_, ?_, ?_, ?_, ?_⟩
  · rw [translatedNodes, nodeNames, List.map_append, List.map_append,
      List.map_map, List.map_map, List.map_map]
    rfl
  · simp [translatedNodes]
    omega
  · intro m
    refine ⟨rfl, rfl,
      m.pres.map (fun p => { type := "", statement := p }),
      m.posts.map (fun p => { type := "", statement := p }),
      m.assertions.map (fun q => { type := "assertion", statement := q }),
      rfl, hmapstmt "" m.pres, ?_, hmapstmt "" m.posts, ?_,
      hmapstmt "assertion" m.assertions, ?_⟩
    · intro t ht
      rw [List.mem_map] at ht
      obtain ⟨p, _, rfl⟩ := ht
      show ("" : String) ≠ "assertion"
      decide
    · intro t ht
      rw [List.mem_map] at ht
      obtain ⟨p, _, rfl⟩ := ht
      show ("" : String) ≠ "assertion"
      decide
    · intro t ht
      rw [List.mem_map] at ht
      obtain ⟨q, _, rfl⟩ := ht
      rfl
  · intro o
    refine ⟨rfl, rfl, hmapstmt "statement" o.statements, ?_⟩
    intro t ht
    rw [buildOperation] at ht
    rw [List.mem_map] at ht
    obtain ⟨s, _, rfl⟩ := ht
    rfl
  · intro a
    refine ⟨rfl, rfl, hmapstmt "assertion" a.queries, ?_⟩
    intro t ht
    rw [buildAssertion] at ht
    rw [List.mem_map] at ht
    obtain ⟨q, _, rfl⟩ := ht
    rfl

/-- Witness for C5 on `mRich`: the translated tasks are the pre, the
(empty) adapter output, the post, then the assertion-typed check. -/
theorem c5_witness :
    ((buildMaterialization adapterNone rcAll mRich).name = mRich.name ∧
      (buildMaterialization adapterNone rcAll mRich).dependencies =
        mRich.dependencies ∧
      ∃ t₁ t₃ t₄ : List ExecutionTask,
        (buildMaterialization adapterNone rcAll mRich).tasks =
          t₁ ++ adapterNone mRich rcAll ++ t₃ ++ t₄ ∧
        t₁.map (fun t => t.statement) = mRich.pres ∧
        (∀ t ∈ t₁, t.type ≠ "assertion") ∧
        t₃.map (fun t => t.statement) = mRich.posts ∧
        (∀ t ∈ t₃, t.type ≠ "assertion") ∧
        t₄.map (fun t => t.statement) = mRich.assertions ∧
        (∀ t ∈ t₄, t.type = "assertion")) ∧
    (buildMaterialization adapterNone rcAll mRich).tasks =
      [{ type := "", statement := "pre1" },
       { type := "", statement := "post1" },
       { type := "assertion", statement := "check1" }] :=
  ⟨(c5_translation_complete adapterNone gABC rcAll).2.2.1 mRich, by decide⟩

/-- C7: `build` is deterministic.  The embedding of the builder is a
pure function of the compiled graph, the run configuration and the
adapter's task generation — the source reads no state other than these
— so structurally equal inputs give structurally equal outcomes,
thrown errors included. -/
theorem c7_build_deterministic (f : Adapter) (g₁ g₂ : CompiledGraph)
    (rc₁ rc₂ : RunConfig) (hg : g₁ = g₂) (hrc : rc₁ = rc₂) :
    build f g₁ rc₁ = build f g₂ rc₂ := by
  subst hg
  subst hrc
  rfl

/-- Witness for C7 at a concrete input, also evaluating the common
result. -/
theorem c7_witness :
    build adapterNone gABC rcA = build adapterNone gABC rcA ∧
      build adapterNone gABC rcA =
        .ok { projectConfig := {}, runConfig := rcA
              nodes := [{ name := "A", dependencies := [], tasks := [] }] } :=
  ⟨c7_build_deterministic adapterNone gABC gABC rcA rcA rfl rfl, by decide⟩

/-- C9: the chain-carrying traversal terminates on every finite node
list, cyclic graphs and unresolvable names included: along any path the
chain grows by one node per call and a repeated node throws instead of
recursing, so the recursion depth bound of one more than the node count
is never exhausted — the traversal always completes with success or a
thrown error. -/
theorem c9_cycle_check_terminates (nodes : List ExecutionNode) :
    checkCircularAll nodes = CircRes.ok ∨
      ∃ e, checkCircularAll nodes = CircRes.err e := by
  cases h : checkCircularAll nodes with
  | ok => exact Or.inl rfl
  | err e => exact Or.inr ⟨e, rfl⟩
  | out => exact absurd h (checkCircularAll_ne_out nodes)

/-- C1: in a successfully built execution graph, every name in any
output node's dependency list is the name of some node of the output
graph — no dangling post-prune references. -/
theorem c1_no_dangling_after_prune (f : Adapter) (g : CompiledGraph)
    (rc : RunConfig) (G : ExecutionGraph) (h : build f g rc = .ok G) :
    ∀ nd ∈ G.nodes, ∀ d ∈ nd.dependencies,
      ∃ nd' ∈ G.nodes, nd'.name = d := by
  obtain ⟨hdeps, hcirc, rfl⟩ := build_ok_iff.mp h
  intro nd hnd d hd
  simp only [List.mem_map] at hnd
  obtain ⟨nd₀, hnd₀, rfl⟩ := hnd
  rw [pruneNode] at hd
  have hdfin : d ∈ finalIncluded (translatedNodes f g rc) rc :=
    matchPatterns_subset hd
  have hdnames := finalIncluded_subset hdfin
  rw [nodeNames, List.mem_map] at hdnames
  obtain ⟨nd', hnd', hname⟩ := hdnames
  refine ⟨pruneNode (finalIncluded (translatedNodes f g rc) rc) nd', ?_, hname⟩
  apply List.mem_map_of_mem
  rw [selectedNodes, List.mem_filter]
  refine ⟨hnd', ?_⟩
  rw [hname]
  simpa using hdfin

/-- Witness for C1: the expanded partial build of `gABC` keeps `A`'s
dependency on `B`, and `B` is present in the output. -/
theorem c1_witness :
    build adapterNone gABC rcADeps = .ok gABCExpandedOut ∧
    ∀ nd ∈ gABCExpandedOut.nodes, ∀ d ∈ nd.dependencies,
      ∃ nd' ∈ gABCExpandedOut.nodes, nd'.name = d :=
  ⟨by decide,
    c1_no_dangling_after_prune adapterNone gABC rcADeps gABCExpandedOut (by decide)⟩

/-- C2: when every dependency name of the translated node set names an
existing node, `build` throws if and only if the dependency graph
(resolved through the name map) has a cycle — a self-dependency
included — and any thrown message is the chain message listing the
traversal path followed by the repeated node, `[A > B > C > A]` style;
an acyclic graph throws nothing. -/
theorem c2_circular_error_iff_cycle (f : Adapter) (g : CompiledGraph)
    (rc : RunConfig)
    (hres : ∀ nd ∈ translatedNodes f g rc, ∀ d ∈ nd.dependencies,
      d ∈ nodeNames (translatedNodes f g rc)) :
    ((∃ e, build f g rc = .error e) ↔ HasCycle (translatedNodes f g rc))
    ∧ (∀ e, build f g rc = .error e →
        ∃ ch x, e = chainMsg (translatedNodes f g rc) ch x ∧ x ∈ ch ∧
          (ch ++ [x]).Chain' (edgeStep (translatedNodes f g rc))) := by
  have hok : checkAllDeps (nodeNames (translatedNodes f g rc))
      (translatedNodes f g rc) = .ok () := checkAllDeps_ok_iff.mpr hres
  constructor
  · constructor
    · rintro ⟨e, he⟩
      exact (checkCircularAll_err_iff hres).mp
        ⟨e, (build_error_iff_circ hok e).mp he⟩
    · intro hcyc
      obtain ⟨e, he⟩ := (checkCircularAll_err_iff hres).mpr hcyc
      exact ⟨e, (build_error_iff_circ hok e).mpr he⟩
  · intro e he
    exact checkCircularAll_err_msg hres ((build_error_iff_circ hok e).mp he)

/-- Witness for C2 on the three-node cycle `A → B → C → A`: all
dependencies resolve, the build fails, a cycle exists, and the thrown
message is the full chain. -/
theorem c2_witness :
    (∀ nd ∈ translatedNodes adapterNone gCycle rcAll, ∀ d ∈ nd.dependencies,
      d ∈ nodeNames (translatedNodes adapterNone gCycle rcAll)) ∧
    ((∃ e, build adapterNone gCycle rcAll = .error e) ↔
      HasCycle (translatedNodes adapterNone gCycle rcAll)) ∧
    build adapterNone gCycle rcAll =
      .error "Circular dependency detected in chain: [A > B > C > A]" :=
  ⟨by decide,
    (c2_circular_error_iff_cycle adapterNone gCycle rcAll (by decide)).1,
    by decide⟩

/-- C3: `build` throws exactly when validation fails — some dependency
name is dangling or the resolved graph is cyclic; when a dangling
dependency exists the thrown message is the missing-dependency message
naming the dependant node and the missing name; and a throwing build
returns no graph at all. -/
theorem c3_build_error_iff_validation_fails (f : Adapter)
    (g : CompiledGraph) (rc : RunConfig) :
    ((∃ e, build f g rc = .error e) ↔
      ((∃ nd ∈ translatedNodes f g rc, ∃ d ∈ nd.dependencies,
          d ∉ nodeNames (translatedNodes f g rc))
        ∨ HasCycle (translatedNodes f g rc)))
    ∧ ((∃ nd ∈ translatedNodes f g rc, ∃ d ∈ nd.dependencies,
          d ∉ nodeNames (translatedNodes f g rc)) →
        ∃ nd ∈ translatedNodes f g rc, ∃ d ∈ nd.dependencies,
          d ∉ nodeNames (translatedNodes f g rc) ∧
            build f g rc = .error (missingDepMsg nd.name d))
    ∧ (∀ e G, build f g rc = .error e → build f g rc ≠ .ok G) := by
  have hmsg : (∃ nd ∈ translatedNodes f g rc, ∃ d ∈ nd.dependencies,
      d ∉ nodeNames (translatedNodes f g rc)) →
      ∃ nd ∈ translatedNodes f g rc, ∃ d ∈ nd.dependencies,
        d ∉ nodeNames (translatedNodes f g rc) ∧
          build f g rc = .error (missingDepMsg nd.name d) := by
    intro hdang
    cases hc : checkAllDeps (nodeNames (translatedNodes f g rc))
        (translatedNodes f g rc) with
    | ok u =>
      cases u
      obtain ⟨nd, hnd, d, hd, hdn⟩ := hdang
      exact absurd (checkAllDeps_ok_iff.mp hc nd hnd d hd) hdn
    | error e =>
      obtain ⟨nd, hnd, d, hd, hdn, rfl⟩ := checkAllDeps_error hc
      exact ⟨nd, hnd, d, hd, hdn, build_error_of_deps hc⟩
  refine ⟨?_, hmsg, ?_⟩
  · constructor
    · rintro ⟨e, he⟩
      cases hc : checkAllDeps (nodeNames (translatedNodes f g rc))
          (translatedNodes f g rc) with
      | ok u =>
        cases u
        have hres := checkAllDeps_ok_iff.mp hc
        exact Or.inr ((checkCircularAll_err_iff hres).mp
          ⟨e, (build_error_iff_circ hc e).mp he⟩)
      | error e' =>
        obtain ⟨nd, hnd, d, hd, hdn, _⟩ := checkAllDeps_error hc
        exact Or.inl ⟨nd, hnd, d, hd, hdn⟩
    · intro hval
      rcases hval with hdang | hcyc
      · obtain ⟨nd, _, d, _, _, he⟩ := hmsg hdang
        exact ⟨missingDepMsg nd.name d, he⟩
      · cases hc : checkAllDeps (nodeNames (translatedNodes f g rc))
            (translatedNodes f g rc) with
        | ok u =>
          cases u
          obtain ⟨e, he⟩ :=
            (checkCircularAll_err_iff (checkAllDeps_ok_iff.mp hc)).mpr hcyc
          exact ⟨e, (build_error_iff_circ hc e).mpr he⟩
        | error e' => exact ⟨e', build_error_of_deps hc⟩
  · intro e G he hok
    rw [he] at hok
    exact Except.noConfusion hok

/-- Witness for C3 on `gMissing` (`X` depends on the absent `Y`): the
dangling dependency exists and the build throws the identifying
message. -/
theorem c3_witness :
    (∃ nd ∈ translatedNodes adapterNone gMissing rcAll,
      ∃ d ∈ nd.dependencies,
        d ∉ nodeNames (translatedNodes adapterNone gMissing rcAll)) ∧
    (∃ nd ∈ translatedNodes adapterNone gMissing rcAll,
      ∃ d ∈ nd.dependencies,
        d ∉ nodeNames (translatedNodes adapterNone gMissing rcAll) ∧
          build adapterNone gMissing rcAll =
            .error (missingDepMsg nd.name d)) ∧
    build adapterNone gMissing rcAll =
      .error "Node \"X\" depends on \"Y\" which does not exist." :=
  ⟨by decide,
    (c3_build_error_iff_validation_fails adapterNone gMissing rcAll).2.1
      (by decide),
    by decide⟩

/-- C4: with `includeDependencies` set, the `|allNodes|`-fold repetition
of the per-node dependency-matching pass makes the included-name set
contain every name reachable from the initially matched names along
matcher-resolved dependency edges, and every such name is present as a
node of the output graph. -/
theorem c4_expansion_transitive_closure (f : Adapter) (g : CompiledGraph)
    (rc : RunConfig) (G : ExecutionGraph)
    (hdep : rc.includeDependencies = true) (hok : build f g rc = .ok G) :
    ∀ a b, a ∈ initialIncluded rc (nodeNames (translatedNodes f g rc)) →
      Relation.ReflTransGen (nameEdge (translatedNodes f g rc)) a b →
      b ∈ finalIncluded (translatedNodes f g rc) rc ∧
        ∃ nd ∈ G.nodes, nd.name = b := by
  obtain ⟨hdeps, hcirc, rfl⟩ := build_ok_iff.mp hok
  intro a b ha hr
  have hfin : finalIncluded (translatedNodes f g rc) rc =
      expandMany (translatedNodes f g rc)
        (nodeNames (translatedNodes f g rc))
        (translatedNodes f g rc).length
        (initialIncluded rc (nodeNames (translatedNodes f g rc))) := by
    rw [finalIncluded, if_pos hdep]
  have hbfin : b ∈ finalIncluded (translatedNodes f g rc) rc := by
    rw [hfin]
    exact reachable_in_expanded hr (expandMany_supset _ ha)
  refine ⟨hbfin, ?_⟩
  have hbnames := finalIncluded_subset hbfin
  rw [nodeNames, List.mem_map] at hbnames
  obtain ⟨nd', hnd', hname⟩ := hbnames
  refine ⟨pruneNode (finalIncluded (translatedNodes f g rc) rc) nd', ?_, hname⟩
  apply List.mem_map_of_mem
  rw [selectedNodes, List.mem_filter]
  exact ⟨hnd', by rw [hname]; simpa using hbfin⟩

/-- Witness for C4: selecting `A` in `gABC` with expansion pulls in the
dependency `B` (reachable in one matcher step), the output is exactly
`A` then `B`, and `A` still lists `B`. -/
theorem c4_witness :
    rcADeps.includeDependencies = true ∧
    build adapterNone gABC rcADeps = .ok gABCExpandedOut ∧
    ("B" ∈ finalIncluded (translatedNodes adapterNone gABC rcADeps) rcADeps ∧
      ∃ nd ∈ gABCExpandedOut.nodes, nd.name = "B") ∧
    gABCExpandedOut.nodes.map (fun nd => nd.name) = ["A", "B"] ∧
    (∃ nd ∈ gABCExpandedOut.nodes,
      nd.name = "A" ∧ nd.dependencies = ["B"]) :=
  ⟨rfl, by decide,
    c4_expansion_transitive_closure adapterNone gABC rcADeps gABCExpandedOut
      rfl (by decide) "A" "B" (by decide)
      (Relation.ReflTransGen.single (by decide)),
    by decide, by decide⟩

theorem matchesPattern_exact {p c : String} (h : isExactName p) :
    matchesPattern p c = true ↔ p = c := by
  rw [matchesPattern, if_neg h.1, if_neg h.2]
  exact beq_iff_eq

/-- C6 (counterexample): under the default run configuration the prune
replaces `X`'s declared dependency list `["B", "A"]` — exact names, all
present in the node set — with the candidate-ordered `["A", "B"]`, so
dependencies are not left unchanged as the claim states. -/
theorem c6_counterexample :
    rcAll.nodes = [] ∧ rcAll.includeDependencies = false ∧
    (∃ nd ∈ translatedNodes adapterNone gOrder rcAll,
      nd.name = "X" ∧ nd.dependencies = ["B", "A"] ∧
        ∀ d ∈ nd.dependencies,
          d ∈ nodeNames (translatedNodes adapterNone gOrder rcAll)) ∧
    build adapterNone gOrder rcAll = .ok gOrderOut ∧
    (∃ nd ∈ gOrderOut.nodes, nd.name = "X" ∧ nd.dependencies = ["A", "B"]) ∧
    ¬(∃ nd ∈ gOrderOut.nodes, nd.name = "X" ∧ nd.dependencies = ["B", "A"]) := by
  decide

/-- C6 (amended): with an empty selector list and no dependency
expansion, the output contains every translated node in translation
order, each with its dependencies pruned against the full node-name
set; for a node whose declared dependencies are exact names this prune
drops nothing — the pruned list has exactly the declared members,
though rearranged into node-name order. -/
theorem c6_default_selection_amended (f : Adapter) (g : CompiledGraph)
    (rc : RunConfig) (G : ExecutionGraph) (hn : rc.nodes = [])
    (hd : rc.includeDependencies = false) (hok : build f g rc = .ok G) :
    G.nodes = (translatedNodes f g rc).map
        (pruneNode (nodeNames (translatedNodes f g rc)))
    ∧ nodeNames G.nodes = nodeNames (translatedNodes f g rc)
    ∧ ∀ nd ∈ translatedNodes f g rc,
        (∀ p ∈ nd.dependencies, isExactName p) →
        ∀ x, x ∈ (pruneNode (nodeNames (translatedNodes f g rc)) nd).dependencies
          ↔ x ∈ nd.dependencies := by
  obtain ⟨hdeps, hcirc, rfl⟩ := build_ok_iff.mp hok
  have hfin : finalIncluded (translatedNodes f g rc) rc =
      nodeNames (translatedNodes f g rc) := by
    rw [finalIncluded, if_neg (by simp [hd]), initialIncluded,
      if_pos (by simp [hn])]
  have hsel : selectedNodes (translatedNodes f g rc) rc =
      translatedNodes f g rc := by
    rw [selectedNodes]
    apply List.filter_eq_self.mpr
    intro nd hnd
    rw [hfin]
    simp only [nodeNames]
    simpa using List.mem_map_of_mem (fun nd => nd.name) hnd
  refine ⟨by rw [hsel, hfin], ?_, ?_⟩
  · rw [hsel, hfin, nodeNames, List.map_map]
    rfl
  · intro nd hnd hexact x
    rw [pruneNode]
    constructor
    · intro hx
      obtain ⟨_, p, hp, hmp⟩ := mem_matchPatterns.mp hx
      rw [← (matchesPattern_exact (hexact p hp)).mp hmp]
      exact hp
    · intro hx
      exact mem_matchPatterns.mpr
        ⟨checkAllDeps_ok_iff.mp hdeps nd hnd x hx, x, hx,
          (matchesPattern_exact (hexact x hx)).mpr rfl⟩

/-- Witness for the amended C6 on `gOrder`: the default build succeeds
and returns all three nodes in translation order with membership-equal
pruned dependencies. -/
theorem c6_witness :
    rcAll.nodes = [] ∧ rcAll.includeDependencies = false ∧
    build adapterNone gOrder rcAll = .ok gOrderOut ∧
    gOrderOut.nodes = (translatedNodes adapterNone gOrder rcAll).map
      (pruneNode (nodeNames (translatedNodes adapterNone gOrder rcAll))) ∧
    nodeNames gOrderOut.nodes =
      nodeNames (translatedNodes adapterNone gOrder rcAll) :=
  ⟨rfl, rfl, by decide,
    (c6_default_selection_amended adapterNone gOrder rcAll gOrderOut rfl rfl
      (by decide)).1,
    (c6_default_selection_amended adapterNone gOrder rcAll gOrderOut rfl rfl
      (by decide)).2.1⟩

theorem readArr_append {heap : List (List String)} {c : List String}
    {r : Nat} (h : r < heap.length) :
    readArr (heap ++ [c]) r = readArr heap r := by
  rw [readArr, readArr, List.getD_eq_getElem _ _ h,
    List.getD_eq_getElem _ _ (by rw [List.length_append]; omega)]
  exact List.getElem_append_left h

theorem readArr_append_self (heap : List (List String)) (c : List String) :
    readArr (heap ++ [c]) heap.length = c := by
  rw [readArr, List.getD_eq_getElem _ _ (by simp)]
  exact List.getElem_concat_length heap c heap.length rfl (by simp)

/-- C8: the pruning pass, modelled over an explicit heap shared with the
source entities' dependency arrays, writes no pre-existing cell: every
cell the input graph's entities reference reads the same after the pass,
the output nodes keep their names, and each output node's `dependencies`
field points at a fresh cell holding the matcher result over the
original referenced list. -/
theorem c8_prune_never_mutates_input (included : List String) :
    ∀ (hnodes : List HeapNode) (heap : List (List String)),
      (∀ nd ∈ hnodes, nd.depsRef < heap.length) →
      (∀ r < heap.length,
        readArr (pruneNodesHeap included hnodes heap).2 r = readArr heap r)
      ∧ (pruneNodesHeap included hnodes heap).1.map (fun nd => nd.name)
          = hnodes.map (fun nd => nd.name)
      ∧ (pruneNodesHeap included hnodes heap).1.map
            (fun nd => readArr (pruneNodesHeap included hnodes heap).2 nd.depsRef)
          = hnodes.map
            (fun nd => matchPatterns (readArr heap nd.depsRef) included) := by
  intro hnodes
  induction hnodes with
  | nil => exact fun heap _ => ⟨fun r _ => rfl, rfl, rfl⟩
  | cons nd rest ih =>
    intro heap hwf
    have hwf' : ∀ x ∈ rest, x.depsRef <
        (heap ++ [matchPatterns (readArr heap nd.depsRef) included]).length := by
      intro x hx
      rw [List.length_append]
      have := hwf x (List.mem_cons_of_mem _ hx)
      simp
      omega
    obtain ⟨hframe, hnames, hcontent⟩ :=
      ih (heap ++ [matchPatterns (readArr heap nd.depsRef) included]) hwf'
    have hndlt := hwf nd (List.mem_cons_self _ _)
    refine ⟨?_, ?_, ?_⟩
    · intro r hr
      rw [pruneNodesHeap]
      rw [hframe r (by rw [List.length_append]; omega)]
      exact readArr_append hr
    · rw [pruneNodesHeap, List.map_cons, hnames, List.map_cons]
    · rw [pruneNodesHeap]
      dsimp only
      rw [List.map_cons, List.map_cons, hframe heap.length (by simp),
        readArr_append_self, hcontent]
      congr 1
      apply List.map_congr_left
      intro x hx
      rw [readArr_append (hwf x (List.mem_cons_of_mem _ hx))]

theorem nodeAt_mem {nodes : List ExecutionNode} {j : Nat}
    (h : j < nodes.length) : nodeAt nodes j ∈ nodes := by
  rw [nodeAt, List.getD_eq_getElem _ _ h]
  exact List.getElem_mem h

theorem countP_congr_mem {α : Type} (p q : α → Bool) :
    ∀ l : List α, (∀ a ∈ l, p a = q a) → l.countP p = l.countP q := by
  intro l
  induction l with
  | nil => intro _; rfl
  | cons a rest ih =>
    intro h
    rw [List.countP_cons, List.countP_cons, h a (List.mem_cons_self _ _),
      ih (fun x hx => h x (List.mem_cons_of_mem _ hx))]

theorem resolveIdx_eq_some_iff {nodes : List ExecutionNode} {nm : String}
    {j : Nat} :
    resolveIdx nodes nm = some j ↔
      (j < nodes.length ∧ nameAt nodes j = nm ∧
        ∀ k, j < k → k < nodes.length → nameAt nodes k ≠ nm) := by
  constructor
  · intro h
    exact ⟨resolveIdx_lt h, resolveIdx_name h, resolveIdx_last h⟩
  · rintro ⟨hj, hname, hlast⟩
    cases hr : resolveIdx nodes nm with
    | none =>
      exact absurd hname (resolveIdx_none_of hr (nodeAt nodes j) (nodeAt_mem hj))
    | some j₂ =>
      have hj₂ := resolveIdx_lt hr
      have hn₂ := resolveIdx_name hr
      rcases Nat.lt_trichotomy j j₂ with hlt | heq | hgt
      · exact absurd hn₂ (hlast j₂ hlt hj₂)
      · rw [heq]
      · exact absurd hname (resolveIdx_last hr j hgt hj)

theorem resolveIdx_append_right {xs ys : List ExecutionNode} {nm : String}
    {j : Nat} (h : resolveIdx ys nm = some j) :
    resolveIdx (xs ++ ys) nm = some (xs.length + j) := by
  induction xs with
  | nil => simpa using h
  | cons x xs ih =>
    rw [List.cons_append, resolveIdx, ih]
    dsimp only
    exact congrArg some (by simp; omega)

/-- C10: duplicate node names do not make `build` fail by themselves:
every translated node whose name survives selection is present in the
output, counted with multiplicity; the name map resolves each name to
the last translated node carrying it (so assertions shadow operations,
which shadow materializations); and the cycle traversal follows only
the dependencies of that shadowing node. -/
theorem c10_duplicate_names_shadow (f : Adapter) (g : CompiledGraph)
    (rc : RunConfig) :
    (∀ G, build f g rc = .ok G → ∀ nm,
      nm ∈ finalIncluded (translatedNodes f g rc) rc →
        (G.nodes.filter (fun nd => nd.name == nm)).length =
          ((translatedNodes f g rc).filter (fun nd => nd.name == nm)).length)
    ∧ (∀ nm j, resolveIdx (translatedNodes f g rc) nm = some j ↔
        (j < (translatedNodes f g rc).length ∧
          nameAt (translatedNodes f g rc) j = nm ∧
          ∀ k, j < k → k < (translatedNodes f g rc).length →
            nameAt (translatedNodes f g rc) k ≠ nm))
    ∧ (∀ nm, nm ∈ g.assertions.map (fun a => a.name) →
        ∃ j, resolveIdx (translatedNodes f g rc) nm = some j ∧
          g.materializations.length + g.operations.length ≤ j)
    ∧ (∀ i j, edgeStep (translatedNodes f g rc) i j →
        ∀ k, j < k → k < (translatedNodes f g rc).length →
          nameAt (translatedNodes f g rc) k ≠
            nameAt (translatedNodes f g rc) j) := by
  refine ⟨?_, fun nm j => resolveIdx_eq_some_iff, ?_, ?_⟩
  · intro G hok nm hnm
    obtain ⟨hdeps, hcirc, rfl⟩ := build_ok_iff.mp hok
    rw [← List.countP_eq_length_filter, ← List.countP_eq_length_filter,
      List.countP_map, selectedNodes, List.countP_filter]
    apply countP_congr_mem
    intro nd _
    show ((nd.name == nm) &&
        (finalIncluded (translatedNodes f g rc) rc).contains nd.name)
      = (nd.name == nm)
    cases hb : (nd.name == nm) with
    | false => rfl
    | true =>
      rw [Bool.true_and]
      rw [eq_of_beq hb]
      simpa using hnm
  · intro nm hnm
    rw [List.mem_map] at hnm
    obtain ⟨a, ha, rfl⟩ := hnm
    have hmem : a.name ∈ nodeNames (g.assertions.map buildAssertion) := by
      rw [nodeNames, List.map_map]
      exact List.mem_map_of_mem _ ha
    obtain ⟨j, hj⟩ := resolveIdx_some_of_mem hmem
    refine ⟨(g.materializations.map (buildMaterialization f rc)
        ++ g.operations.map buildOperation).length + j, ?_, ?_⟩
    · rw [translatedNodes]
      exact resolveIdx_append_right hj
    · rw [List.length_append, List.length_map, List.length_map]
      omega
  · intro i j hedge k hk hklen
    obtain ⟨d, hd, hr⟩ := hedge
    rw [resolveIdx_name hr]
    exact resolveIdx_last hr k hk hklen

/-- Witness for C10 on `gShadow`: the build succeeds despite three
nodes named `X`, all three appear in the output, and the name map
resolves `X` to index 3, the assertion — the last translated `X`. -/
theorem c10_witness :
    build adapterNone gShadow rcAll = .ok gShadowOut ∧
    ((gShadowOut.nodes.filter (fun nd => nd.name == "X")).length =
      ((translatedNodes adapterNone gShadow rcAll).filter
        (fun nd => nd.name == "X")).length) ∧
    (gShadowOut.nodes.filter (fun nd => nd.name == "X")).length = 3 ∧
    resolveIdx (translatedNodes adapterNone gShadow rcAll) "X" = some 3 ∧
    gShadow.materializations.length + gShadow.operations.length = 3 :=
  ⟨by decide,
    (c10_duplicate_names_shadow adapterNone gShadow rcAll).1 gShadowOut
      (by decide) "X" (by decide),
    by decide, by decide, by decide⟩

/-- Witness for C8 on a two-cell heap: both pre-existing cells read the
same after the pass, and the pass only appended fresh cells. -/
theorem c8_witness :
    (∀ nd ∈ ([⟨"A", 0⟩, ⟨"X", 1⟩] : List HeapNode),
      nd.depsRef < ([["B"], ["B", "A"]] : List (List String)).length) ∧
    (∀ r < ([["B"], ["B", "A"]] : List (List String)).length,
      readArr (pruneNodesHeap ["A", "B"] [⟨"A", 0⟩, ⟨"X", 1⟩]
        [["B"], ["B", "A"]]).2 r = readArr [["B"], ["B", "A"]] r) ∧
    (pruneNodesHeap ["A", "B"] [⟨"A", 0⟩, ⟨"X", 1⟩] [["B"], ["B", "A"]]).2
      = [["B"], ["B", "A"], ["B"], ["A", "B"]] :=
  ⟨by decide,
    (c8_prune_never_mutates_input ["A", "B"] [⟨"A", 0⟩, ⟨"X", 1⟩]
      [["B"], ["B", "A"]] (by decide)).1,
    by decide⟩

end Dataform
